import Mathlib

/-!
Verification of the HTTP client/transport layer of libprocess
(src/3rdparty/libprocess/src/http.cpp): content negotiation
(Request::accepts), the streaming Pipe, the query-string codec,
response framing (internal::decode) and request rendering
(internal::_request).

C++ byte strings are modelled as `List Char` (`Str`) where structural
recursion is needed (codecs, tokenizing) and as `String` elsewhere.
Helper routines from the stout string library (tokenize, pairs, split,
remove, startsWith, numify) are not part of this file's source slice;
they are modelled from their documented behaviour, restricted to the
ways http.cpp invokes them, as noted on each definition.
-/

namespace Http

set_option maxRecDepth 10000

/-- C++ `std::string` viewed as a list of characters. -/
abbrev Str := List Char

/-- Coerce a Lean string literal to the `Str` model. -/
def str (s : String) : Str := s.toList

/-- Worker for `tokenize`: `cur` is the reversed current token. -/
def tokenizeGo (delims : List Char) : Str → Str → List Str
  | [], cur => if cur = [] then [] else [cur.reverse]
  | c :: cs, cur =>
    if delims.contains c then
      if cur = [] then tokenizeGo delims cs []
      else cur.reverse :: tokenizeGo delims cs []
    else tokenizeGo delims cs (c :: cur)

/-- Models stout `strings::tokenize(s, delims)`: split on any character
of `delims`, discarding empty tokens. -/
def tokenize (delims : List Char) (s : Str) : List Str :=
  tokenizeGo delims s []

/-- RFC 3986 unreserved characters, left untouched by percent-encoding. -/
def isUnreserved (c : Char) : Bool :=
  c.isAlpha || c.isDigit || c = '-' || c = '.' || c = '_' || c = '~'

/-- Upper-case hexadecimal digit for `n < 16`. -/
def hexDigitChar (n : Nat) : Char :=
  if n < 10 then Char.ofNat (48 + n) else Char.ofNat (65 + n - 10)

/-- Modelled from the spec: `http::encode` ("percent-encode of an
individual string", an external collaborator of this slice, §6):
every byte that is not unreserved becomes `%` followed by two
upper-case hex digits. -/
def percentEncodeChar (c : Char) : Str :=
  if isUnreserved c then [c]
  else ['%', hexDigitChar (c.toNat / 16 % 16), hexDigitChar (c.toNat % 16)]

/-- Percent-encode a byte string. -/
def percentEncode (s : Str) : Str := (s.map percentEncodeChar).flatten

/-- Value of a hexadecimal digit, `none` on a non-digit. -/
def hexVal (c : Char) : Option Nat :=
  if '0' ≤ c ∧ c ≤ '9' then some (c.toNat - 48)
  else if 'A' ≤ c ∧ c ≤ 'F' then some (c.toNat - 65 + 10)
  else if 'a' ≤ c ∧ c ≤ 'f' then some (c.toNat - 97 + 10)
  else none

/-- Modelled from the spec: `http::decode` ("percent-decode of an
individual string (may fail on malformed input)", §6): a `%` must be
followed by two hex digits, anything else passes through. -/
def percentDecode : Str → Except String Str
  | [] => Except.ok []
  | c :: rest =>
    if c = '%' then
      match rest with
      | a :: b :: rest' =>
        match hexVal a, hexVal b with
        | some x, some y =>
          match percentDecode rest' with
          | Except.ok t => Except.ok (Char.ofNat (16 * x + y) :: t)
          | Except.error e => Except.error e
        | _, _ => Except.error "Malformed % escape"
      | _ => Except.error "Malformed % escape"
    else
      match percentDecode rest with
      | Except.ok t => Except.ok (c :: t)
      | Except.error e => Except.error e

/-- Models `strings::remove(s, sub, SUFFIX)` for a one-character
substring: drop the final character if it equals `x` (used by
`query::encode` to drop the trailing `&`). -/
def removeOneSuffix (x : Char) (s : Str) : Str :=
  match s.getLast? with
  | some c => if c = x then s.dropLast else s
  | none => s

/-- `query::encode` (http.cpp lines 338-350): for each pair emit the
percent-encoded key, then `=` and the percent-encoded value only when
the value is non-empty, then `&`; finally remove the trailing `&`.
The hashmap is modelled as an association list iterated in order. -/
def queryEncode (q : List (Str × Str)) : Str :=
  removeOneSuffix '&'
    ((q.map (fun p =>
        percentEncode p.1 ++
        (if p.2 = [] then [] else '=' :: percentEncode p.2) ++
        ['&'])).flatten)

/-- Insert-or-overwrite into a hashmap modelled as an association
list: an existing key keeps its position and gets the new value, a new
key is appended. -/
def hmInsertS (m : List (Str × Str)) (k v : Str) : List (Str × Str) :=
  if m.any (fun p => p.1 == k) then
    m.map (fun p => if p.1 == k then (p.1, v) else p)
  else m ++ [(k, v)]

/-- Models stout `strings::split(token, "=", 2)` as `query::decode`
uses it (the spec, §4.5: "value delimiter is the first `=`, so values
may contain `=`"): the part before the first `d` and, when `d` occurs,
the part after it. -/
def splitFirstAt (d : Char) : Str → Str × Option Str
  | [] => ([], none)
  | c :: cs =>
    if c = d then ([], some cs)
    else
      match splitFirstAt d cs with
      | (a, b) => (c :: a, b)

/-- The token loop of `query::decode` (http.cpp lines 311-332): for
each token, percent-decode the key and (when present) the value,
failing on either part's error; a key with no `=` maps to the empty
string; later keys overwrite earlier ones. -/
def queryDecodeLoop (acc : List (Str × Str)) :
    List Str → Except String (List (Str × Str))
  | [] => Except.ok acc
  | t :: ts =>
    match splitFirstAt '=' t with
    | (kRaw, vRaw) =>
      match percentDecode kRaw with
      | Except.error e => Except.error e
      | Except.ok k =>
        match vRaw with
        | some raw =>
          match percentDecode raw with
          | Except.error e => Except.error e
          | Except.ok v => queryDecodeLoop (hmInsertS acc k v) ts
        | none => queryDecodeLoop (hmInsertS acc k []) ts

/-- `query::decode` (http.cpp lines 306-335): tokenize on `;` and `&`
and fold the tokens into a map. -/
def queryDecode (q : Str) : Except String (List (Str × Str)) :=
  queryDecodeLoop [] (tokenize [';', '&'] q)

/-! ### The streaming Pipe (http.cpp lines 158-301)

The shared block `Pipe::Data` is modelled by `PipeData`.  Promises are
modelled by identities (`Nat`, allocated by `nextPromise`); resolving
or failing a promise — which the code performs outside the critical
section — is recorded as an explicit event.  The fields `readEnd`,
`writeEnd`, `writes` and `reads` are the source's fields;
`nextPromise` names the promises and `readerClosureSet` is the state
of the single `readerClosure` promise. -/

/-- State of one pipe end. -/
inductive EndSt
  | OPEN
  | CLOSED
deriving DecidableEq, Repr

/-- The mutex-guarded shared block `Pipe::Data`. -/
structure PipeData where
  readEnd : EndSt
  writeEnd : EndSt
  writes : List String
  reads : List Nat
  nextPromise : Nat
  readerClosureSet : Bool
deriving DecidableEq, Repr

/-- A freshly constructed pipe: both ends open, queues empty. -/
def freshPipe : PipeData :=
  { readEnd := EndSt.OPEN, writeEnd := EndSt.OPEN, writes := [], reads := [],
    nextPromise := 0, readerClosureSet := false }

/-- What `Pipe::Reader::read` hands back. -/
inductive ReadRes
  | failed (msg : String)
  | chunk (s : String)
  | pending (id : Nat)
deriving DecidableEq, Repr

/-- `Pipe::Reader::read` (http.cpp lines 170-191): fail when the read
end is closed; otherwise pop a buffered chunk if any; otherwise an
empty chunk when the write end is closed; otherwise enqueue a fresh
pending-read promise and hand out its future. -/
def pipeRead (d : PipeData) : PipeData × ReadRes :=
  if d.readEnd = EndSt.CLOSED then (d, ReadRes.failed "closed")
  else
    match d.writes with
    | s :: rest => ({ d with writes := rest }, ReadRes.chunk s)
    | [] =>
      if d.writeEnd = EndSt.CLOSED then (d, ReadRes.chunk "")
      else
        ({ d with reads := d.reads ++ [d.nextPromise],
                  nextPromise := d.nextPromise + 1 },
         ReadRes.pending d.nextPromise)

/-- `Pipe::Writer::write` (http.cpp lines 237-267): ignored (returns
`false`) unless both ends are open; an empty chunk is accepted but
buffers nothing; otherwise the oldest pending read is satisfied (the
promise-set action is returned, performed outside the lock) or the
chunk is buffered. -/
def pipeWrite (d : PipeData) (s : String) :
    PipeData × Bool × Option (Nat × String) :=
  if d.writeEnd = EndSt.OPEN ∧ d.readEnd = EndSt.OPEN then
    if s = "" then (d, true, none)
    else
      match d.reads with
      | [] => ({ d with writes := d.writes ++ [s] }, true, none)
      | r :: rest => ({ d with reads := rest }, true, some (r, s))
  else (d, false, none)

/-- `Pipe::Reader::close` (http.cpp lines 194-234): no-op when the
read end is already closed; otherwise discard the buffered chunks,
extract the pending reads (failed with `closed` outside the lock,
returned here as the id list), close the read end, and fulfil
`readerClosure` exactly when the write end is still open.  Result:
(new state, returned bool, reads to fail, notify). -/
def pipeReaderClose (d : PipeData) : PipeData × Bool × List Nat × Bool :=
  if d.readEnd = EndSt.OPEN then
    if d.writeEnd = EndSt.OPEN then
      ({ d with writes := [], reads := [], readEnd := EndSt.CLOSED,
                readerClosureSet := true },
       true, d.reads, true)
    else
      ({ d with writes := [], reads := [], readEnd := EndSt.CLOSED },
       true, d.reads, false)
  else (d, false, [], false)

/-- `Pipe::Writer::close` (http.cpp lines 270-295): no-op when the
write end is already closed; otherwise extract the pending reads
(each resolved with an empty chunk outside the lock, returned here as
the id list) and close the write end, leaving `writes` intact. -/
def pipeWriterClose (d : PipeData) : PipeData × Bool × List Nat :=
  if d.writeEnd = EndSt.OPEN then
    ({ d with reads := [], writeEnd := EndSt.CLOSED }, true, d.reads)
  else (d, false, [])

/-- One operation of a pipe trace. -/
inductive PipeOp
  | read
  | write (s : String)
  | rclose
  | wclose
deriving DecidableEq, Repr

/-- Observable events of one operation: the value handed back to the
caller, plus every promise transition the operation performs after
releasing the lock. -/
inductive PipeEv
  | readFailed (msg : String)
  | readChunk (s : String)
  | readPending (id : Nat)
  | promiseSet (id : Nat) (s : String)
  | promiseFailed (id : Nat) (msg : String)
  | writeRet (b : Bool) (s : String)
  | rcloseRet (b : Bool)
  | wcloseRet (b : Bool)
  | notify
deriving DecidableEq, Repr

/-- One step of the pipe: next state and the events it produces, in
program order (promise transitions happen before the call returns). -/
def pipeStep (d : PipeData) : PipeOp → PipeData × List PipeEv
  | PipeOp.read =>
    match pipeRead d with
    | (d', ReadRes.failed m) => (d', [PipeEv.readFailed m])
    | (d', ReadRes.chunk s) => (d', [PipeEv.readChunk s])
    | (d', ReadRes.pending i) => (d', [PipeEv.readPending i])
  | PipeOp.write s =>
    match pipeWrite d s with
    | (d', w, some (i, c)) => (d', [PipeEv.promiseSet i c, PipeEv.writeRet w s])
    | (d', w, none) => (d', [PipeEv.writeRet w s])
  | PipeOp.rclose =>
    match pipeReaderClose d with
    | (d', c, ids, ntf) =>
      (d', ids.map (fun i => PipeEv.promiseFailed i "closed") ++
           (if ntf then [PipeEv.notify] else []) ++ [PipeEv.rcloseRet c])
  | PipeOp.wclose =>
    match pipeWriterClose d with
    | (d', c, ids) =>
      (d', ids.map (fun i => PipeEv.promiseSet i "") ++ [PipeEv.wcloseRet c])

/-- Run a trace of operations. -/
def pipeExec (d : PipeData) : List PipeOp → PipeData
  | [] => d
  | op :: ops => pipeExec (pipeStep d op).1 ops

/-- The events of a trace, in order. -/
def pipeEvents (d : PipeData) : List PipeOp → List PipeEv
  | [] => []
  | op :: ops => (pipeStep d op).2 ++ pipeEvents (pipeStep d op).1 ops

/-- The chunks written by successful writes, in order. -/
def writtenOf (evs : List PipeEv) : List String :=
  evs.filterMap fun e =>
    match e with
    | PipeEv.writeRet true s => some s
    | _ => none

/-- The chunks delivered to reads, in the order they were delivered:
immediately returned chunks and chunks delivered through a pending
promise. -/
def deliveredOf (evs : List PipeEv) : List String :=
  evs.filterMap fun e =>
    match e with
    | PipeEv.readChunk s => some s
    | PipeEv.promiseSet _ s => some s
    | _ => none

/-- The pending-read promise ids, in creation order. -/
def pendingIdsOf (evs : List PipeEv) : List Nat :=
  evs.filterMap fun e =>
    match e with
    | PipeEv.readPending i => some i
    | _ => none

/-- The promise ids resolved with a chunk, in resolution order. -/
def resolvedIdsOf (evs : List PipeEv) : List Nat :=
  evs.filterMap fun e =>
    match e with
    | PipeEv.promiseSet i _ => some i
    | _ => none

/-- Number of `read` calls recorded in the events. -/
def readCountOf (evs : List PipeEv) : Nat :=
  evs.countP fun e =>
    match e with
    | PipeEv.readFailed _ => true
    | PipeEv.readChunk _ => true
    | PipeEv.readPending _ => true
    | _ => false

/-- Traces claim C3 quantifies over: only reads and writes of
non-empty chunks. -/
def isRW : PipeOp → Bool
  | PipeOp.read => true
  | PipeOp.write s => !(s == "")
  | _ => false

/-- The wire form of one query pair as `query::encode` emits it:
percent-encoded key, and `=` plus percent-encoded value only when the
value is non-empty. -/
def encPiece (p : Str × Str) : Str :=
  percentEncode p.1 ++ (if p.2 = [] then [] else '=' :: percentEncode p.2)

/-- Invariant tying a pipe state to the events of the read/write-only
trace that produced it (claim C3): writes and reads line up in FIFO
order.  With `W` the chunks written so far, `R` the reads issued so
far and `k = min R |W|`: the chunks delivered so far are exactly the
first `k` written chunks in order, the buffer holds the written-but-
unread tail, the pending-read queue holds the unresolved promise ids
in issue order, promise ids are issued consecutively from `0`, and
promises are resolved in exactly the order they were issued. -/
def C3Inv (d : PipeData) (evs : List PipeEv) : Prop :=
  d.readEnd = EndSt.OPEN ∧ d.writeEnd = EndSt.OPEN ∧
  deliveredOf evs =
    (writtenOf evs).take (min (readCountOf evs) (writtenOf evs).length) ∧
  d.writes = (writtenOf evs).drop (readCountOf evs) ∧
  d.reads = List.range' (resolvedIdsOf evs).length
    (readCountOf evs - min (readCountOf evs) (writtenOf evs).length) ∧
  d.nextPromise = (pendingIdsOf evs).length ∧
  pendingIdsOf evs = List.range (pendingIdsOf evs).length ∧
  resolvedIdsOf evs = List.range (resolvedIdsOf evs).length ∧
  (resolvedIdsOf evs).length +
    (readCountOf evs - min (readCountOf evs) (writtenOf evs).length) =
    (pendingIdsOf evs).length

/-! ### Request rendering (http.cpp lines 440-514) and response
framing (http.cpp lines 356-376) -/

/-- The `URL` of process/http.hpp: scheme, literal IP or domain, port,
path, query mapping and optional fragment.  The query hashmap is an
association list iterated in insertion order. -/
structure URL where
  scheme : String
  ip : Option String
  domain : Option String
  port : Nat
  path : String
  query : List (String × String)
  fragment : Option String

/-- Insert-or-overwrite on a `String`-keyed hashmap modelled as an
association list (`headers[key] = value`). -/
def hmInsert (m : List (String × String)) (k v : String) :
    List (String × String) :=
  if m.any (fun p => p.1 == k) then
    m.map (fun p => if p.1 == k then (p.1, v) else p)
  else m ++ [(k, v)]

/-- Hashmap lookup. -/
def hmGet (m : List (String × String)) (k : String) : Option String :=
  (m.find? (fun p => p.1 == k)).map Prod.snd

/-- Models `strings::remove(path, "/", PREFIX)` (http.cpp line 451):
one leading `/`, if present, is removed. -/
def removeOneLeadSlash (s : String) : String :=
  match s.data with
  | '/' :: rest => String.mk rest
  | _ => s

/-- The query part of the request line (http.cpp lines 453-462): each
pair becomes `key=value` — the `=` always present, nothing
percent-encoded — and the pairs are joined with `&`. -/
def requestQueryString (q : List (String × String)) : String :=
  String.intercalate "&" (q.map fun p => p.1 ++ "=" ++ p.2)

/-- The request line `METHOD /path[?query][#fragment] HTTP/1.1\r\n`
(http.cpp lines 451-468). -/
def requestLine (url : URL) (method : String) : String :=
  method ++ " /" ++ removeOneLeadSlash url.path ++
  (if url.query = [] then "" else "?" ++ requestQueryString url.query) ++
  (match url.fragment with
   | some f => "#" ++ f
   | none => "") ++
  " HTTP/1.1\r\n"

/-- The header map sent on the wire (http.cpp lines 470-491): the
caller's headers, then `Host` set to the stringified resolved address,
`Connection` set to `close`, `Content-Type` overwritten when the
explicit argument is supplied, `Content-Length` set from the body
length when a body is present. -/
def finalHeaders (address : String)
    (callerHeaders : Option (List (String × String)))
    (body contentType : Option String) : List (String × String) :=
  let h0 := callerHeaders.getD []
  let h1 := hmInsert h0 "Host" address
  let h2 := hmInsert h1 "Connection" "close"
  let h3 :=
    match contentType with
    | some ct => hmInsert h2 "Content-Type" ct
    | none => h2
  match body with
  | some b => hmInsert h3 "Content-Length" (toString b.length)
  | none => h3

/-- Serialize the headers (http.cpp lines 494-496): each pair emitted
once as `Key: Value\r\n`, in map-iteration order. -/
def headerBlock (hs : List (String × String)) : String :=
  String.join (hs.map fun p => p.1 ++ ": " ++ p.2 ++ "\r\n")

/-- The rendered request `internal::_request` sends as a single write
(http.cpp lines 449-502): request line, headers, a blank line, and the
body bytes if present.  `address` is the stringified resolved address
(the only use `_request` makes of it). -/
def renderRequest (address : String) (url : URL) (method : String)
    (callerHeaders : Option (List (String × String)))
    (body contentType : Option String) : String :=
  requestLine url method ++
  headerBlock (finalHeaders address callerHeaders body contentType) ++
  "\r\n" ++
  (match body with
   | some b => b
   | none => "")

/-- `internal::decode` (http.cpp lines 356-376).  The external
incremental response parser (spec §6: `decode(bytes) -> (success flag,
sequence of response objects)`) is a parameter; response objects are
opaque to this layer, hence the type parameter.  Parser failure or
zero responses fail with a message carrying the offending buffer;
otherwise the first response is returned (extras are only logged). -/
def decodeResp {α : Type} (parser : String → Bool × List α)
    (buffer : String) : Except String α :=
  match (parser buffer).2, (parser buffer).1 with
  | [], _ => Except.error ("Failed to decode HTTP response:\n" ++ buffer ++ "\n")
  | r :: _, ok =>
    if ok then Except.ok r
    else Except.error ("Failed to decode HTTP response:\n" ++ buffer ++ "\n")

/-! ## Theorems -/

/-! ### Pipe: per-operation facts -/

theorem pipeRead_of_readEnd_closed (d : PipeData)
    (h : d.readEnd = EndSt.CLOSED) :
    pipeRead d = (d, ReadRes.failed "closed") := by
  simp [pipeRead, h]

theorem pipeWrite_of_readEnd_closed (d : PipeData) (s : String)
    (h : d.readEnd = EndSt.CLOSED) :
    pipeWrite d s = (d, false, none) := by
  simp [pipeWrite, h]

theorem pipeStep_readEnd_closed (d : PipeData) (op : PipeOp)
    (h : d.readEnd = EndSt.CLOSED) :
    ((pipeStep d op).1).readEnd = EndSt.CLOSED := by
  cases op with
  | read => simp [pipeStep, pipeRead_of_readEnd_closed d h, h]
  | write s => simp [pipeStep, pipeWrite_of_readEnd_closed d s h, h]
  | rclose => simp [pipeStep, pipeReaderClose, h]
  | wclose => cases hw : d.writeEnd <;> simp [pipeStep, pipeWriterClose, hw, h]

theorem pipeExec_readEnd_closed (ops : List PipeOp) :
    ∀ d : PipeData, d.readEnd = EndSt.CLOSED →
      (pipeExec d ops).readEnd = EndSt.CLOSED := by
  induction ops with
  | nil => intro d h; exact h
  | cons op ops ih =>
    intro d h
    exact ih _ (pipeStep_readEnd_closed d op h)

theorem pipeStep_excl (d : PipeData) (op : PipeOp)
    (h : d.writes = [] ∨ d.reads = []) :
    ((pipeStep d op).1).writes = [] ∨ ((pipeStep d op).1).reads = [] := by
  cases op with
  | read =>
    cases hre : d.readEnd with
    | CLOSED => simpa [pipeStep, pipeRead, hre] using h
    | OPEN =>
      cases hwr : d.writes with
      | nil =>
        cases hwe : d.writeEnd <;>
          simp [pipeStep, pipeRead, hre, hwr, hwe]
      | cons s rest =>
        rcases h with h | h
        · simp [hwr] at h
        · simp [pipeStep, pipeRead, hre, hwr, h]
  | write s =>
    cases hre : d.readEnd with
    | CLOSED => simpa [pipeStep, pipeWrite, hre] using h
    | OPEN =>
      cases hwe : d.writeEnd with
      | CLOSED => simpa [pipeStep, pipeWrite, hwe] using h
      | OPEN =>
        by_cases hs : s = ""
        · simpa [pipeStep, pipeWrite, hre, hwe, hs] using h
        · cases hrd : d.reads with
          | nil => simp [pipeStep, pipeWrite, hre, hwe, hs, hrd]
          | cons r rest =>
            rcases h with h | h
            · simp [pipeStep, pipeWrite, hre, hwe, hs, hrd, h]
            · simp [hrd] at h
  | rclose =>
    cases hre : d.readEnd with
    | CLOSED => simpa [pipeStep, pipeReaderClose, hre] using h
    | OPEN => cases hwe : d.writeEnd <;>
        simp [pipeStep, pipeReaderClose, hre, hwe]
  | wclose =>
    cases hwe : d.writeEnd with
    | CLOSED => simpa [pipeStep, pipeWriterClose, hwe] using h
    | OPEN => simp [pipeStep, pipeWriterClose, hwe]

theorem pipeExec_excl (ops : List PipeOp) :
    ∀ d : PipeData, (d.writes = [] ∨ d.reads = []) →
      ((pipeExec d ops).writes = [] ∨ (pipeExec d ops).reads = []) := by
  induction ops with
  | nil => intro d h; exact h
  | cons op ops ih =>
    intro d h
    exact ih _ (pipeStep_excl d op h)

/-- Claim C4: in every state of a Pipe reachable from a fresh pipe by
any sequence of read, write, Reader.close and Writer.close
operations, the buffered-chunk queue (`writes`) and the pending-read
queue (`reads`) are never both non-empty. -/
theorem claim_C4 (ops : List PipeOp) :
    (pipeExec freshPipe ops).writes = [] ∨
    (pipeExec freshPipe ops).reads = [] := by
  exact pipeExec_excl ops freshPipe (Or.inl rfl)

/-- Claim C5: a first `Reader::close` (read end still open) returns
true, discards all buffered chunks, fails exactly the pending reads
with `closed` (in order), closes the read end, and afterwards — at any
later state — every write returns false leaving the state unchanged
and every read returns a future failed with `closed`. -/
theorem claim_C5 (d : PipeData) (h : d.readEnd = EndSt.OPEN) :
    (pipeReaderClose d).2.1 = true ∧
    (pipeReaderClose d).2.2.1 = d.reads ∧
    (pipeReaderClose d).1.writes = [] ∧
    (pipeReaderClose d).1.reads = [] ∧
    (pipeReaderClose d).1.readEnd = EndSt.CLOSED ∧
    (pipeReaderClose d).1.writeEnd = d.writeEnd ∧
    (pipeStep d PipeOp.rclose).2 =
      d.reads.map (fun i => PipeEv.promiseFailed i "closed") ++
      (if d.writeEnd = EndSt.OPEN then [PipeEv.notify] else []) ++
      [PipeEv.rcloseRet true] ∧
    (∀ ops s,
      pipeWrite (pipeExec (pipeReaderClose d).1 ops) s =
        (pipeExec (pipeReaderClose d).1 ops, false, none) ∧
      pipeRead (pipeExec (pipeReaderClose d).1 ops) =
        (pipeExec (pipeReaderClose d).1 ops, ReadRes.failed "closed")) := by
  have hclosed : (pipeReaderClose d).1.readEnd = EndSt.CLOSED := by
    cases hw : d.writeEnd <;> simp [pipeReaderClose, h, hw]
  have hlater : ∀ ops, (pipeExec (pipeReaderClose d).1 ops).readEnd =
      EndSt.CLOSED := fun ops => pipeExec_readEnd_closed ops _ hclosed
  refine ⟨?_, ?_, ?_, ?_, hclosed, ?_, ?_, ?_⟩
  · cases hw : d.writeEnd <;> simp [pipeReaderClose, h, hw]
  · cases hw : d.writeEnd <;> simp [pipeReaderClose, h, hw]
  · cases hw : d.writeEnd <;> simp [pipeReaderClose, h, hw]
  · cases hw : d.writeEnd <;> simp [pipeReaderClose, h, hw]
  · cases hw : d.writeEnd <;> simp [pipeReaderClose, h, hw]
  · cases hw : d.writeEnd <;> simp [pipeStep, pipeReaderClose, h, hw]
  · intro ops s
    exact ⟨pipeWrite_of_readEnd_closed _ s (hlater ops),
           pipeRead_of_readEnd_closed _ (hlater ops)⟩

/-- Claim C5 witness: a concrete open pipe with buffered data and
pending reads. -/
theorem claim_C5_witness :
    (({ readEnd := EndSt.OPEN, writeEnd := EndSt.OPEN, writes := ["buf"],
        reads := [0, 1], nextPromise := 2,
        readerClosureSet := false } : PipeData)).readEnd = EndSt.OPEN ∧
    (pipeReaderClose
      { readEnd := EndSt.OPEN, writeEnd := EndSt.OPEN, writes := ["buf"],
        reads := [0, 1], nextPromise := 2,
        readerClosureSet := false }).2.1 = true :=
  ⟨rfl, (claim_C5 _ rfl).1⟩

theorem pipeStep_writeEnd_closed (d : PipeData) (op : PipeOp)
    (h : d.writeEnd = EndSt.CLOSED) :
    ((pipeStep d op).1).writeEnd = EndSt.CLOSED := by
  cases op with
  | read =>
    cases hre : d.readEnd with
    | CLOSED => simp [pipeStep, pipeRead, hre, h]
    | OPEN =>
      cases hwr : d.writes with
      | cons s rest => simp [pipeStep, pipeRead, hre, hwr, h]
      | nil => simp [pipeStep, pipeRead, hre, hwr, h]
  | write s => simp [pipeStep, pipeWrite, h]
  | rclose =>
    cases hre : d.readEnd with
    | CLOSED => simp [pipeStep, pipeReaderClose, hre, h]
    | OPEN => simp [pipeStep, pipeReaderClose, hre, h]
  | wclose => simp [pipeStep, pipeWriterClose, h]

theorem pipeExec_writeEnd_closed (ops : List PipeOp) :
    ∀ d : PipeData, d.writeEnd = EndSt.CLOSED →
      (pipeExec d ops).writeEnd = EndSt.CLOSED := by
  induction ops with
  | nil => intro d h; exact h
  | cons op ops ih =>
    intro d h
    exact ih _ (pipeStep_writeEnd_closed d op h)

theorem pipeWriterClose_of_writeEnd_closed (d : PipeData)
    (h : d.writeEnd = EndSt.CLOSED) :
    pipeWriterClose d = (d, false, []) := by
  simp [pipeWriterClose, h]

/-- Claim C6: a first `Writer::close` (write end still open) returns
true, resolves exactly the pending reads with the empty end-of-stream
chunk in their original order, closes the write end, leaves the
buffered chunks intact, and any later `Writer::close` — immediately or
after any further operations — returns false with no effect. -/
theorem claim_C6 (d : PipeData) (h : d.writeEnd = EndSt.OPEN) :
    (pipeWriterClose d).2.1 = true ∧
    (pipeWriterClose d).2.2 = d.reads ∧
    (pipeWriterClose d).1.writes = d.writes ∧
    (pipeWriterClose d).1.reads = [] ∧
    (pipeWriterClose d).1.writeEnd = EndSt.CLOSED ∧
    (pipeWriterClose d).1.readEnd = d.readEnd ∧
    (pipeWriterClose d).1.readerClosureSet = d.readerClosureSet ∧
    (pipeStep d PipeOp.wclose).2 =
      d.reads.map (fun i => PipeEv.promiseSet i "") ++
      [PipeEv.wcloseRet true] ∧
    pipeWriterClose (pipeWriterClose d).1 =
      ((pipeWriterClose d).1, false, []) ∧
    (∀ ops, pipeWriterClose (pipeExec (pipeWriterClose d).1 ops) =
      (pipeExec (pipeWriterClose d).1 ops, false, [])) := by
  have hcl : (pipeWriterClose d).1.writeEnd = EndSt.CLOSED := by
    simp [pipeWriterClose, h]
  refine ⟨?_, ?_, ?_, ?_, ?_, ?_, ?_, ?_, ?_, ?_⟩
  · simp [pipeWriterClose, h]
  · simp [pipeWriterClose, h]
  · simp [pipeWriterClose, h]
  · simp [pipeWriterClose, h]
  · simp [pipeWriterClose, h]
  · simp [pipeWriterClose, h]
  · simp [pipeWriterClose, h]
  · simp [pipeStep, pipeWriterClose, h]
  · simp [pipeStep, pipeWriterClose, h]
  · intro ops
    exact pipeWriterClose_of_writeEnd_closed _
      (pipeExec_writeEnd_closed ops _ hcl)

/-- Claim C6 witness: a concrete open pipe with three pending reads. -/
theorem claim_C6_witness :
    (({ readEnd := EndSt.OPEN, writeEnd := EndSt.OPEN, writes := [],
        reads := [0, 1, 2], nextPromise := 3,
        readerClosureSet := false } : PipeData)).writeEnd = EndSt.OPEN ∧
    (pipeStep
      { readEnd := EndSt.OPEN, writeEnd := EndSt.OPEN, writes := [],
        reads := [0, 1, 2], nextPromise := 3,
        readerClosureSet := false } PipeOp.wclose).2 =
      [PipeEv.promiseSet 0 "", PipeEv.promiseSet 1 "",
       PipeEv.promiseSet 2 "", PipeEv.wcloseRet true] :=
  ⟨rfl, (claim_C6 _ rfl).2.2.2.2.2.2.2.1⟩

/-- Claim C9: response framing fails — with an error carrying the
offending buffer — exactly when the parser reports failure or yields
zero responses; on success it returns the first response only, as the
concrete two-response instance shows (the second response is
discarded). -/
theorem claim_C9 {α : Type} (parser : String → Bool × List α)
    (buffer : String) :
    (((parser buffer).1 = false ∨ (parser buffer).2 = []) →
      decodeResp parser buffer =
        Except.error ("Failed to decode HTTP response:\n" ++ buffer ++ "\n")) ∧
    (∀ r rs, (parser buffer).1 = true → (parser buffer).2 = r :: rs →
      decodeResp parser buffer = Except.ok r) ∧
    decodeResp (fun _ => (true, [10, 20])) "two" = Except.ok 10 := by
  refine ⟨?_, ?_, rfl⟩
  · intro h
    rcases h with h | h
    · unfold decodeResp
      rcases hr : (parser buffer).2 with _ | ⟨r, rs⟩
      · rfl
      · simp [h]
    · unfold decodeResp
      simp [h]
  · intro r rs hok hrs
    unfold decodeResp
    simp [hok, hrs]

/-- Claim C9 witness: a parser yielding zero responses produces the
decoding error carrying the buffer. -/
theorem claim_C9_witness :
    decodeResp (fun _ : String => (false, ([] : List Nat))) "buf" =
      Except.error ("Failed to decode HTTP response:\n" ++ "buf" ++ "\n") :=
  (claim_C9 (fun _ : String => (false, ([] : List Nat))) "buf").1 (Or.inl rfl)

/-- Claim C10: the request line renders every query pair as
`key=value` joined with `&` — the `=` present even for an empty value
and neither side percent-encoded — unlike `query::encode`, which
percent-encodes both parts and omits the `=` when the value is
empty. -/
theorem claim_C10 :
    (∀ k v : String, requestQueryString [(k, v)] = k ++ "=" ++ v) ∧
    requestQueryString [("a", ""), ("b", "2")] = "a=&b=2" ∧
    queryEncode [(str "a", str ""), (str "b", str "2")] = str "a&b=2" ∧
    requestQueryString [("a b", "c")] = "a b=c" ∧
    queryEncode [(str "a b", str "c")] = str "a%20b=c" ∧
    String.mk (queryEncode [(str "a", str "")]) ≠
      requestQueryString [("a", "")] := by
  refine ⟨fun k v => rfl, by decide, by decide, by decide, by decide, by decide⟩

/-! ### Header hashmap lemmas (for claim C2) -/

theorem hmGet_nil (k' : String) : hmGet [] k' = none := rfl

theorem hmGet_cons (p : String × String) (m : List (String × String))
    (k' : String) :
    hmGet (p :: m) k' = if p.1 = k' then some p.2 else hmGet m k' := by
  by_cases h : p.1 = k'
  · rw [hmGet, List.find?_cons_of_pos _ (by simpa using h)]
    simp [h]
  · rw [hmGet, List.find?_cons_of_neg _ (by simpa using h), if_neg h]
    rfl

theorem overwriteAt_of_eq {p : String × String} {k : String} (v : String)
    (hp : p.1 = k) :
    (if p.1 == k then (p.1, v) else p) = (p.1, v) := by
  simp [hp]

theorem overwriteAt_of_ne {p : String × String} {k : String} (v : String)
    (hp : ¬ p.1 = k) :
    (if p.1 == k then (p.1, v) else p) = p := by
  simp [hp]

theorem keys_map_overwrite (m : List (String × String)) (k v : String) :
    (m.map (fun q => if q.1 == k then (q.1, v) else q)).map Prod.fst =
      m.map Prod.fst := by
  induction m with
  | nil => rfl
  | cons p m ih =>
    rw [List.map_cons, List.map_cons, List.map_cons, ih]
    by_cases hp : p.1 = k
    · rw [overwriteAt_of_eq v hp]
    · rw [overwriteAt_of_ne v hp]

theorem hmGet_map_overwrite_self (m : List (String × String)) (k v : String)
    (h : ∃ p ∈ m, p.1 = k) :
    hmGet (m.map (fun q => if q.1 == k then (q.1, v) else q)) k = some v := by
  induction m with
  | nil => simp at h
  | cons p m ih =>
    rw [List.map_cons]
    by_cases hp : p.1 = k
    · rw [overwriteAt_of_eq v hp, hmGet_cons, if_pos hp]
    · have h' : ∃ q ∈ m, q.1 = k := by
        rcases h with ⟨q, hq, hqk⟩
        rcases List.mem_cons.1 hq with rfl | hq'
        · exact absurd hqk hp
        · exact ⟨q, hq', hqk⟩
      rw [overwriteAt_of_ne v hp, hmGet_cons, if_neg hp]
      exact ih h'

theorem hmGet_map_overwrite_other (m : List (String × String))
    (k v k' : String) (h : k' ≠ k) :
    hmGet (m.map (fun q => if q.1 == k then (q.1, v) else q)) k' =
      hmGet m k' := by
  induction m with
  | nil => rfl
  | cons p m ih =>
    rw [List.map_cons]
    by_cases hp : p.1 = k
    · have hpk' : ¬ p.1 = k' := fun hh => h (hh.symm.trans hp)
      rw [overwriteAt_of_eq v hp, hmGet_cons, if_neg hpk', hmGet_cons,
        if_neg hpk']
      exact ih
    · by_cases hpk' : p.1 = k'
      · rw [overwriteAt_of_ne v hp, hmGet_cons, if_pos hpk', hmGet_cons,
          if_pos hpk']
      · rw [overwriteAt_of_ne v hp, hmGet_cons, if_neg hpk', hmGet_cons,
          if_neg hpk']
        exact ih

theorem hmGet_append_single_self (m : List (String × String)) (k v : String)
    (h : ∀ p ∈ m, p.1 ≠ k) :
    hmGet (m ++ [(k, v)]) k = some v := by
  induction m with
  | nil => rw [List.nil_append, hmGet_cons, if_pos rfl]
  | cons p m ih =>
    have hp := h p (List.mem_cons_self p m)
    rw [List.cons_append, hmGet_cons, if_neg hp]
    exact ih (fun q hq => h q (List.mem_cons_of_mem p hq))

theorem hmGet_append_single_other (m : List (String × String))
    (k v k' : String) (h : k' ≠ k) :
    hmGet (m ++ [(k, v)]) k' = hmGet m k' := by
  induction m with
  | nil =>
    rw [List.nil_append, hmGet_cons, if_neg (fun hh => h (Eq.symm hh))]
  | cons p m ih =>
    by_cases hpk' : p.1 = k'
    · rw [List.cons_append, hmGet_cons, if_pos hpk', hmGet_cons, if_pos hpk']
    · rw [List.cons_append, hmGet_cons, if_neg hpk', hmGet_cons, if_neg hpk']
      exact ih

theorem anyKey_true_iff (m : List (String × String)) (k : String) :
    (m.any (fun q => q.1 == k) = true) ↔ ∃ p ∈ m, p.1 = k := by
  rw [List.any_eq_true]
  constructor
  · rintro ⟨p, hp, hk⟩; exact ⟨p, hp, by simpa using hk⟩
  · rintro ⟨p, hp, hk⟩; exact ⟨p, hp, by simpa using hk⟩

theorem hmGet_hmInsert_self (m : List (String × String)) (k v : String) :
    hmGet (hmInsert m k v) k = some v := by
  unfold hmInsert
  by_cases h : m.any (fun q => q.1 == k) = true
  · rw [if_pos h]
    exact hmGet_map_overwrite_self m k v ((anyKey_true_iff m k).1 h)
  · rw [if_neg h]
    refine hmGet_append_single_self m k v ?_
    intro p hp hk
    exact h ((anyKey_true_iff m k).2 ⟨p, hp, hk⟩)

theorem hmGet_hmInsert_other (m : List (String × String)) (k v k' : String)
    (h : k' ≠ k) : hmGet (hmInsert m k v) k' = hmGet m k' := by
  unfold hmInsert
  by_cases ha : m.any (fun q => q.1 == k) = true
  · rw [if_pos ha]
    exact hmGet_map_overwrite_other m k v k' h
  · rw [if_neg ha]
    exact hmGet_append_single_other m k v k' h

theorem hmInsert_keys_nodup (m : List (String × String)) (k v : String)
    (h : (m.map Prod.fst).Nodup) :
    ((hmInsert m k v).map Prod.fst).Nodup := by
  unfold hmInsert
  by_cases ha : m.any (fun q => q.1 == k) = true
  · rw [if_pos ha, keys_map_overwrite]
    exact h
  · rw [if_neg ha]
    have hk : k ∉ m.map Prod.fst := by
      intro hmem
      rcases List.mem_map.1 hmem with ⟨p, hp, hfst⟩
      exact ha ((anyKey_true_iff m k).2 ⟨p, hp, hfst⟩)
    rw [List.map_append]
    simp [List.nodup_append, h, hk]

/-- Claim C2: the rendered request is the request line
`METHOD /path[?query][#fragment] HTTP/1.1`, then each header exactly
once as `Key: Value\r\n`, a blank line, and the body if present; after
the caller's headers, `Host` is the resolved address, `Connection` is
`close`, `Content-Type` comes from the explicit argument when
supplied, and `Content-Length` is set from the body length only when a
body is present; for `GET http://host:80/a/b?x=1` with no body the
request line is `GET /a/b?x=1 HTTP/1.1` with headers `Host: host:80`
and `Connection: close` and no `Content-Length`. -/
theorem claim_C2 (address : String) (url : URL) (method : String)
    (hdrs : Option (List (String × String)))
    (body contentType : Option String)
    (hnd : ((hdrs.getD []).map Prod.fst).Nodup) :
    renderRequest address url method hdrs body contentType =
      requestLine url method ++
      headerBlock (finalHeaders address hdrs body contentType) ++ "\r\n" ++
      (match body with
       | some b => b
       | none => "") ∧
    ((finalHeaders address hdrs body contentType).map Prod.fst).Nodup ∧
    hmGet (finalHeaders address hdrs body contentType) "Host" =
      some address ∧
    hmGet (finalHeaders address hdrs body contentType) "Connection" =
      some "close" ∧
    (∀ ct, contentType = some ct →
      hmGet (finalHeaders address hdrs body contentType) "Content-Type" =
        some ct) ∧
    (∀ b, body = some b →
      hmGet (finalHeaders address hdrs body contentType) "Content-Length" =
        some (toString b.length)) ∧
    (body = none →
      hmGet (finalHeaders address hdrs body contentType) "Content-Length" =
        hmGet (hdrs.getD []) "Content-Length") ∧
    requestLine
      { scheme := "http", ip := none, domain := some "host", port := 80,
        path := "/a/b", query := [("x", "1")], fragment := none } "GET" =
      "GET /a/b?x=1 HTTP/1.1\r\n" ∧
    hmGet (finalHeaders "host:80" none none none) "Host" = some "host:80" ∧
    hmGet (finalHeaders "host:80" none none none) "Connection" =
      some "close" ∧
    hmGet (finalHeaders "host:80" none none none) "Content-Length" = none := by
  refine ⟨rfl, ?_, ?_, ?_, ?_, ?_, ?_, by decide, by decide, by decide,
    by decide⟩
  · cases body <;> cases contentType <;>
      simp only [finalHeaders] <;>
      repeat'
        first
        | exact hnd
        | apply hmInsert_keys_nodup
  · cases body <;> cases contentType <;>
      simp only [finalHeaders] <;>
      repeat'
        first
        | rw [hmGet_hmInsert_self]
        | rw [hmGet_hmInsert_other _ _ _ _ (by decide)]
  · cases body <;> cases contentType <;>
      simp only [finalHeaders] <;>
      repeat'
        first
        | rw [hmGet_hmInsert_self]
        | rw [hmGet_hmInsert_other _ _ _ _ (by decide)]
  · intro ct hct
    subst hct
    cases body <;>
      simp only [finalHeaders] <;>
      repeat'
        first
        | rw [hmGet_hmInsert_self]
        | rw [hmGet_hmInsert_other _ _ _ _ (by decide)]
  · intro b hb
    subst hb
    cases contentType <;>
      simp only [finalHeaders] <;>
      rw [hmGet_hmInsert_self]
  · intro hb
    subst hb
    cases contentType <;>
      simp only [finalHeaders] <;>
      repeat'
        first
        | rfl
        | rw [hmGet_hmInsert_other _ _ _ _ (by decide)]

/-- Claim C2 witness: concrete caller headers with distinct keys. -/
theorem claim_C2_witness :
    ((((some [("X-Custom", "y")] : Option (List (String × String))).getD
        []).map Prod.fst).Nodup) ∧
    ((finalHeaders "host:80" (some [("X-Custom", "y")]) none none).map
      Prod.fst).Nodup :=
  ⟨by decide,
   (claim_C2 "host:80"
     { scheme := "http", ip := none, domain := some "host", port := 80,
       path := "/a/b", query := [("x", "1")], fragment := none } "GET"
     (some [("X-Custom", "y")]) none none (by decide)).2.1⟩

/-! ### Content negotiation (claim C1) -/

theorem notify_mem_step (d : PipeData) (op : PipeOp) :
    PipeEv.notify ∈ (pipeStep d op).2 ↔
      (op = PipeOp.rclose ∧ d.readEnd = EndSt.OPEN ∧
       d.writeEnd = EndSt.OPEN) := by
  cases op with
  | read =>
    cases hre : d.readEnd with
    | CLOSED => simp [pipeStep, pipeRead, hre]
    | OPEN =>
      cases hwr : d.writes with
      | cons s rest => simp [pipeStep, pipeRead, hre, hwr]
      | nil => cases hwe : d.writeEnd <;> simp [pipeStep, pipeRead, hre, hwr, hwe]
  | write s =>
    cases hre : d.readEnd with
    | CLOSED => simp [pipeStep, pipeWrite, hre]
    | OPEN =>
      cases hwe : d.writeEnd with
      | CLOSED => simp [pipeStep, pipeWrite, hre, hwe]
      | OPEN =>
        by_cases hs : s = ""
        · simp [pipeStep, pipeWrite, hre, hwe, hs]
        · cases hrd : d.reads <;> simp [pipeStep, pipeWrite, hre, hwe, hs, hrd]
  | rclose =>
    cases hre : d.readEnd with
    | CLOSED => simp [pipeStep, pipeReaderClose, hre]
    | OPEN => cases hwe : d.writeEnd <;>
        simp [pipeStep, pipeReaderClose, hre, hwe]
  | wclose =>
    cases hwe : d.writeEnd <;> simp [pipeStep, pipeWriterClose, hwe]

theorem notify_count_step_zero (d : PipeData) (op : PipeOp)
    (h : ¬ (op = PipeOp.rclose ∧ d.readEnd = EndSt.OPEN ∧
            d.writeEnd = EndSt.OPEN)) :
    (pipeStep d op).2.count PipeEv.notify = 0 :=
  List.count_eq_zero.2 (fun hmem => h ((notify_mem_step d op).1 hmem))

theorem notify_count_step_one (d : PipeData)
    (h1 : d.readEnd = EndSt.OPEN) (h2 : d.writeEnd = EndSt.OPEN) :
    (pipeStep d PipeOp.rclose).2.count PipeEv.notify = 1 := by
  have hmap : ((d.reads.map (fun i => PipeEv.promiseFailed i "closed")).count
      PipeEv.notify) = 0 :=
    List.count_eq_zero.2 (by simp)
  simp [pipeStep, pipeReaderClose, h1, h2, List.count_append, hmap,
    List.count_cons]

theorem notify_count_closed (ops : List PipeOp) :
    ∀ d : PipeData, d.readEnd = EndSt.CLOSED →
      (pipeEvents d ops).count PipeEv.notify = 0 := by
  induction ops with
  | nil => intro d _; rfl
  | cons op ops ih =>
    intro d h
    rw [pipeEvents, List.count_append,
      notify_count_step_zero d op (fun hc => by rw [hc.2.1] at h; cases h),
      ih _ (pipeStep_readEnd_closed d op h)]

theorem notify_count_le_one (ops : List PipeOp) :
    ∀ d : PipeData, (pipeEvents d ops).count PipeEv.notify ≤ 1 := by
  induction ops with
  | nil => intro d; exact Nat.zero_le 1
  | cons op ops ih =>
    intro d
    rw [pipeEvents, List.count_append]
    by_cases hc : op = PipeOp.rclose ∧ d.readEnd = EndSt.OPEN ∧
        d.writeEnd = EndSt.OPEN
    · obtain ⟨rfl, h1, h2⟩ := hc
      have hclosed : (pipeStep d PipeOp.rclose).1.readEnd = EndSt.CLOSED := by
        simp [pipeStep, pipeReaderClose, h1, h2]
      rw [notify_count_step_one d h1 h2, notify_count_closed ops _ hclosed]
    · rw [notify_count_step_zero d op hc]
      simpa using ih (pipeStep d op).1

theorem readerClosureSet_step (d : PipeData) (op : PipeOp) :
    (pipeStep d op).1.readerClosureSet =
      (d.readerClosureSet || decide (PipeEv.notify ∈ (pipeStep d op).2)) := by
  cases op with
  | read =>
    cases hre : d.readEnd with
    | CLOSED => simp [pipeStep, pipeRead, hre]
    | OPEN =>
      cases hwr : d.writes with
      | cons s rest => simp [pipeStep, pipeRead, hre, hwr]
      | nil => cases hwe : d.writeEnd <;> simp [pipeStep, pipeRead, hre, hwr, hwe]
  | write s =>
    cases hre : d.readEnd with
    | CLOSED => simp [pipeStep, pipeWrite, hre]
    | OPEN =>
      cases hwe : d.writeEnd with
      | CLOSED => simp [pipeStep, pipeWrite, hre, hwe]
      | OPEN =>
        by_cases hs : s = ""
        · simp [pipeStep, pipeWrite, hre, hwe, hs]
        · cases hrd : d.reads <;> simp [pipeStep, pipeWrite, hre, hwe, hs, hrd]
  | rclose =>
    cases hre : d.readEnd with
    | CLOSED => simp [pipeStep, pipeReaderClose, hre]
    | OPEN => cases hwe : d.writeEnd <;>
        simp [pipeStep, pipeReaderClose, hre, hwe]
  | wclose =>
    cases hwe : d.writeEnd <;> simp [pipeStep, pipeWriterClose, hwe]

theorem readerClosureSet_exec (ops : List PipeOp) :
    ∀ d : PipeData, (pipeExec d ops).readerClosureSet =
      (d.readerClosureSet ||
        decide (PipeEv.notify ∈ pipeEvents d ops)) := by
  induction ops with
  | nil => intro d; simp [pipeExec, pipeEvents]
  | cons op ops ih =>
    intro d
    rw [pipeExec, pipeEvents, ih, readerClosureSet_step]
    simp [List.mem_append, Bool.or_assoc]

/-- Claim C7: over every trace from a fresh pipe, the `readerClosure`
promise is fulfilled at most once (at most one notify event); the
final promise state is set iff a notify event occurred; and a step
emits a notify event iff it is a `Reader::close` executed while the
read end is still open and the write end is still open — in
particular, never when the write end closed first. -/
theorem claim_C7 (ops : List PipeOp) :
    (pipeEvents freshPipe ops).count PipeEv.notify ≤ 1 ∧
    ((pipeExec freshPipe ops).readerClosureSet = true ↔
      PipeEv.notify ∈ pipeEvents freshPipe ops) ∧
    (∀ pre op post, ops = pre ++ op :: post →
      (PipeEv.notify ∈ (pipeStep (pipeExec freshPipe pre) op).2 ↔
        (op = PipeOp.rclose ∧
         (pipeExec freshPipe pre).readEnd = EndSt.OPEN ∧
         (pipeExec freshPipe pre).writeEnd = EndSt.OPEN))) := by
  refine ⟨notify_count_le_one ops freshPipe, ?_, ?_⟩
  · rw [readerClosureSet_exec ops freshPipe]
    simp [freshPipe]
  · intro pre op post _
    exact notify_mem_step _ op

/-- Claim C7 witness: closing the read end of a fresh pipe notifies. -/
theorem claim_C7_witness :
    PipeEv.notify ∈ (pipeStep (pipeExec freshPipe []) PipeOp.rclose).2 ↔
      (PipeOp.rclose = PipeOp.rclose ∧
       (pipeExec freshPipe []).readEnd = EndSt.OPEN ∧
       (pipeExec freshPipe []).writeEnd = EndSt.OPEN) :=
  (claim_C7 [PipeOp.rclose]).2.2 [] PipeOp.rclose [] rfl

/-! ### FIFO delivery (claim C3) -/

theorem writtenOf_append (a b : List PipeEv) :
    writtenOf (a ++ b) = writtenOf a ++ writtenOf b :=
  List.filterMap_append a b _

theorem deliveredOf_append (a b : List PipeEv) :
    deliveredOf (a ++ b) = deliveredOf a ++ deliveredOf b :=
  List.filterMap_append a b _

theorem pendingIdsOf_append (a b : List PipeEv) :
    pendingIdsOf (a ++ b) = pendingIdsOf a ++ pendingIdsOf b :=
  List.filterMap_append a b _

theorem resolvedIdsOf_append (a b : List PipeEv) :
    resolvedIdsOf (a ++ b) = resolvedIdsOf a ++ resolvedIdsOf b :=
  List.filterMap_append a b _

theorem readCountOf_append (a b : List PipeEv) :
    readCountOf (a ++ b) = readCountOf a + readCountOf b :=
  List.countP_append _ a b

theorem writtenOf_readChunk (s : String) : writtenOf [PipeEv.readChunk s] = [] := rfl
theorem writtenOf_readPending (i : Nat) : writtenOf [PipeEv.readPending i] = [] := rfl
theorem writtenOf_writeRet (s : String) : writtenOf [PipeEv.writeRet true s] = [s] := rfl
theorem writtenOf_deliverWrite (i : Nat) (s : String) :
    writtenOf [PipeEv.promiseSet i s, PipeEv.writeRet true s] = [s] := rfl

theorem deliveredOf_readChunk (s : String) : deliveredOf [PipeEv.readChunk s] = [s] := rfl
theorem deliveredOf_readPending (i : Nat) : deliveredOf [PipeEv.readPending i] = [] := rfl
theorem deliveredOf_writeRet (s : String) : deliveredOf [PipeEv.writeRet true s] = [] := rfl
theorem deliveredOf_deliverWrite (i : Nat) (s : String) :
    deliveredOf [PipeEv.promiseSet i s, PipeEv.writeRet true s] = [s] := rfl

theorem pendingIdsOf_readChunk (s : String) : pendingIdsOf [PipeEv.readChunk s] = [] := rfl
theorem pendingIdsOf_readPending (i : Nat) : pendingIdsOf [PipeEv.readPending i] = [i] := rfl
theorem pendingIdsOf_writeRet (s : String) : pendingIdsOf [PipeEv.writeRet true s] = [] := rfl
theorem pendingIdsOf_deliverWrite (i : Nat) (s : String) :
    pendingIdsOf [PipeEv.promiseSet i s, PipeEv.writeRet true s] = [] := rfl

theorem resolvedIdsOf_readChunk (s : String) : resolvedIdsOf [PipeEv.readChunk s] = [] := rfl
theorem resolvedIdsOf_readPending (i : Nat) : resolvedIdsOf [PipeEv.readPending i] = [] := rfl
theorem resolvedIdsOf_writeRet (s : String) : resolvedIdsOf [PipeEv.writeRet true s] = [] := rfl
theorem resolvedIdsOf_deliverWrite (i : Nat) (s : String) :
    resolvedIdsOf [PipeEv.promiseSet i s, PipeEv.writeRet true s] = [i] := rfl

theorem readCountOf_readChunk (s : String) : readCountOf [PipeEv.readChunk s] = 1 := rfl
theorem readCountOf_readPending (i : Nat) : readCountOf [PipeEv.readPending i] = 1 := rfl
theorem readCountOf_writeRet (s : String) : readCountOf [PipeEv.writeRet true s] = 0 := rfl
theorem readCountOf_deliverWrite (i : Nat) (s : String) :
    readCountOf [PipeEv.promiseSet i s, PipeEv.writeRet true s] = 0 := rfl

theorem C3Inv_step (d : PipeData) (evs : List PipeEv) (op : PipeOp)
    (hop : isRW op = true) (hinv : C3Inv d evs) :
    C3Inv (pipeStep d op).1 (evs ++ (pipeStep d op).2) := by
  obtain ⟨hre, hwe, hdel, hbuf, hrds, hnext, hpend, hres, harith⟩ := hinv
  cases op with
  | rclose => simp [isRW] at hop
  | wclose => simp [isRW] at hop
  | write s =>
    have hs : s ≠ "" := by simpa [isRW] using hop
    cases hrd : d.reads with
    | nil =>
      have hRk0 : readCountOf evs -
          min (readCountOf evs) (writtenOf evs).length = 0 := by
        rw [hrd] at hrds
        by_contra hne
        obtain ⟨n, hn⟩ : ∃ n, readCountOf evs -
            min (readCountOf evs) (writtenOf evs).length = n + 1 :=
          ⟨_, (Nat.succ_pred_eq_of_pos (Nat.pos_of_ne_zero hne)).symm⟩
        rw [hn, List.range'_succ] at hrds
        cases hrds
      have hRle : readCountOf evs ≤ (writtenOf evs).length := by
        rcases Nat.le_total (readCountOf evs) (writtenOf evs).length with h | h
        · exact h
        · rw [Nat.min_eq_right h] at hRk0
          omega
      have hk : min (readCountOf evs) (writtenOf evs).length =
          readCountOf evs := Nat.min_eq_left hRle
      have hstep : pipeStep d (PipeOp.write s) =
          ({ d with writes := d.writes ++ [s] },
           [PipeEv.writeRet true s]) := by
        simp [pipeStep, pipeWrite, hre, hwe, hs, hrd]
      rw [hstep]
      unfold C3Inv
      simp only [writtenOf_append, deliveredOf_append, pendingIdsOf_append,
        resolvedIdsOf_append, readCountOf_append, writtenOf_writeRet,
        deliveredOf_writeRet, pendingIdsOf_writeRet, resolvedIdsOf_writeRet,
        readCountOf_writeRet, List.append_nil, Nat.add_zero,
        List.length_append, List.length_cons, List.length_nil]
      have hmin : min (readCountOf evs) ((writtenOf evs).length + (0 + 1)) =
          readCountOf evs := by omega
      refine ⟨hre, hwe, ?_, ?_, ?_, hnext, hpend, hres, ?_⟩
      · rw [hmin, hdel, hk, List.take_append_of_le_length hRle]
      · rw [hbuf, List.drop_append_of_le_length hRle]
      · rw [hrds, hk, hmin]
      · omega
    | cons r rrest =>
      have hRkpos : 0 < readCountOf evs -
          min (readCountOf evs) (writtenOf evs).length := by
        rw [hrd] at hrds
        by_contra hz
        push_neg at hz
        rw [Nat.le_zero] at hz
        rw [hz] at hrds
        cases hrds
      have hkW : min (readCountOf evs) (writtenOf evs).length =
          (writtenOf evs).length := by
        rcases Nat.le_total (readCountOf evs) (writtenOf evs).length with h | h
        · rw [Nat.min_eq_left h] at hRkpos
          omega
        · exact Nat.min_eq_right h
      have hWlt : (writtenOf evs).length < readCountOf evs := by
        rw [hkW] at hRkpos
        omega
      obtain ⟨n, hn⟩ : ∃ n, readCountOf evs -
          min (readCountOf evs) (writtenOf evs).length = n + 1 :=
        ⟨_, (Nat.succ_pred_eq_of_pos hRkpos).symm⟩
      have hrr : r = (resolvedIdsOf evs).length ∧
          rrest = List.range' ((resolvedIdsOf evs).length + 1) n := by
        rw [hrd, hn, List.range'_succ] at hrds
        exact List.cons_eq_cons.mp hrds
      have hstep : pipeStep d (PipeOp.write s) =
          ({ d with reads := rrest },
           [PipeEv.promiseSet r s, PipeEv.writeRet true s]) := by
        simp [pipeStep, pipeWrite, hre, hwe, hs, hrd]
      rw [hstep]
      unfold C3Inv
      simp only [writtenOf_append, deliveredOf_append, pendingIdsOf_append,
        resolvedIdsOf_append, readCountOf_append, writtenOf_deliverWrite,
        deliveredOf_deliverWrite, pendingIdsOf_deliverWrite,
        resolvedIdsOf_deliverWrite, readCountOf_deliverWrite,
        List.append_nil, Nat.add_zero, List.length_append,
        List.length_cons, List.length_nil]
      have hmin : min (readCountOf evs) ((writtenOf evs).length + (0 + 1)) =
          (writtenOf evs).length + 1 := by omega
      refine ⟨hre, hwe, ?_, ?_, ?_, hnext, hpend, ?_, ?_⟩
      · rw [hmin, hdel, hkW, List.take_length,
          List.take_of_length_le (by rw [List.length_append]; simp)]
      · rw [hbuf, List.drop_eq_nil_of_le (le_of_lt hWlt),
          List.drop_eq_nil_of_le
            (by rw [List.length_append]; simp; omega)]
      · rw [hrr.2, hmin]
        congr 1
        omega
      · rw [hres, hrr.1]
        simp only [List.length_range, Nat.zero_add]
        exact (List.range_succ _).symm
      · omega
  | read =>
    cases hwr : d.writes with
    | cons s rest =>
      have hdrop : (writtenOf evs).drop (readCountOf evs) = s :: rest := by
        rw [← hbuf, hwr]
      have hRlt : readCountOf evs < (writtenOf evs).length := by
        by_contra hle
        push_neg at hle
        rw [List.drop_eq_nil_of_le hle] at hdrop
        cases hdrop
      have hk : min (readCountOf evs) (writtenOf evs).length =
          readCountOf evs := Nat.min_eq_left (Nat.le_of_lt hRlt)
      have hgetdrop := List.drop_eq_getElem_cons hRlt
      rw [hdrop] at hgetdrop
      obtain ⟨hs, hrest⟩ := List.cons_eq_cons.mp hgetdrop
      have hstep : pipeStep d PipeOp.read =
          ({ d with writes := rest }, [PipeEv.readChunk s]) := by
        simp [pipeStep, pipeRead, hre, hwr]
      rw [hstep]
      have hm0 : readCountOf evs -
          min (readCountOf evs) (writtenOf evs).length = 0 := by omega
      unfold C3Inv
      simp only [writtenOf_append, deliveredOf_append, pendingIdsOf_append,
        resolvedIdsOf_append, readCountOf_append, writtenOf_readChunk,
        deliveredOf_readChunk, pendingIdsOf_readChunk, resolvedIdsOf_readChunk,
        readCountOf_readChunk, List.append_nil]
      have hmin : min (readCountOf evs + 1) (writtenOf evs).length =
          readCountOf evs + 1 := Nat.min_eq_left hRlt
      refine ⟨hre, hwe, ?_, ?_, ?_, hnext, hpend, hres, ?_⟩
      · rw [hmin, hdel, hk, List.take_succ, List.getElem?_eq_getElem hRlt, hs]
        rfl
      · exact hrest
      · simp only [hmin]
        rw [hrds, hk]
        congr 1
        omega
      · omega
    | nil =>
      have hdropnil : (writtenOf evs).drop (readCountOf evs) = [] := by
        rw [← hbuf, hwr]
      have hWle : (writtenOf evs).length ≤ readCountOf evs :=
        List.drop_eq_nil_iff.mp hdropnil
      have hk : min (readCountOf evs) (writtenOf evs).length =
          (writtenOf evs).length := Nat.min_eq_right hWle
      have hstep : pipeStep d PipeOp.read =
          ({ d with reads := d.reads ++ [d.nextPromise],
                    nextPromise := d.nextPromise + 1 },
           [PipeEv.readPending d.nextPromise]) := by
        simp [pipeStep, pipeRead, hre, hwr, hwe]
      rw [hstep]
      unfold C3Inv
      simp only [writtenOf_append, deliveredOf_append, pendingIdsOf_append,
        resolvedIdsOf_append, readCountOf_append, writtenOf_readPending,
        deliveredOf_readPending, pendingIdsOf_readPending,
        resolvedIdsOf_readPending, readCountOf_readPending, List.append_nil,
        List.length_append, List.length_cons, List.length_nil]
      have hmin : min (readCountOf evs + 1) (writtenOf evs).length =
          (writtenOf evs).length := by omega
      refine ⟨hre, hwe, ?_, ?_, ?_, ?_, ?_, hres, ?_⟩
      · rw [hmin, hdel, hk]
      · rw [hwr, List.drop_eq_nil_of_le (by omega)]
      · rw [hrds, hnext, hk, hmin]
        have hcount : readCountOf evs + 1 - (writtenOf evs).length =
            (readCountOf evs - (writtenOf evs).length) + 1 := by omega
        rw [hcount, List.range'_concat]
        congr 2
        rw [hk] at harith
        omega
      · rw [hnext]
      · conv_lhs => rw [hpend, hnext]
        exact (List.range_succ _).symm
      · rw [hk] at harith
        omega

theorem C3Inv_exec (ops : List PipeOp) :
    ∀ (d : PipeData) (evs : List PipeEv), ops.all isRW = true →
      C3Inv d evs →
      C3Inv (pipeExec d ops) (evs ++ pipeEvents d ops) := by
  induction ops with
  | nil =>
    intro d evs _ hinv
    simpa [pipeExec, pipeEvents] using hinv
  | cons op ops ih =>
    intro d evs hall hinv
    rw [List.all_cons, Bool.and_eq_true] at hall
    rw [pipeExec, pipeEvents, ← List.append_assoc]
    exact ih _ _ hall.2 (C3Inv_step d evs op hall.1 hinv)

theorem C3Inv_fresh : C3Inv freshPipe [] :=
  ⟨rfl, rfl, rfl, rfl, rfl, rfl, rfl, rfl, rfl⟩

/-- Claim C3: over every trace of reads and writes of non-empty chunks
on a fresh pipe, the chunks observed by the reads — immediately popped
or delivered through a pending promise — are, in delivery order,
exactly the first `min R |W|` written chunks in write order (`R` reads
issued, `W` the written chunks); pending-read promises are created
with consecutive ids `0, 1, …` in read-issue order; and they are
resolved in exactly that id order, so pending reads are satisfied in
the order the reads were issued, regardless of whether each write
precedes or follows the read it satisfies. -/
theorem claim_C3 (ops : List PipeOp) (hall : ops.all isRW = true) :
    deliveredOf (pipeEvents freshPipe ops) =
      (writtenOf (pipeEvents freshPipe ops)).take
        (min (readCountOf (pipeEvents freshPipe ops))
          (writtenOf (pipeEvents freshPipe ops)).length) ∧
    pendingIdsOf (pipeEvents freshPipe ops) =
      List.range (pendingIdsOf (pipeEvents freshPipe ops)).length ∧
    resolvedIdsOf (pipeEvents freshPipe ops) =
      List.range (resolvedIdsOf (pipeEvents freshPipe ops)).length := by
  have h := C3Inv_exec ops freshPipe [] hall C3Inv_fresh
  rw [List.nil_append] at h
  exact ⟨h.2.2.1, h.2.2.2.2.2.2.1, h.2.2.2.2.2.2.2.1⟩

/-- Claim C3 witness: a concrete interleaving where one write precedes
its read and one read precedes its write. -/
theorem claim_C3_witness :
    (([PipeOp.write "a", PipeOp.read, PipeOp.read, PipeOp.write "b",
       PipeOp.read] : List PipeOp).all isRW = true) ∧
    deliveredOf (pipeEvents freshPipe
        [PipeOp.write "a", PipeOp.read, PipeOp.read, PipeOp.write "b",
         PipeOp.read]) =
      (writtenOf (pipeEvents freshPipe
          [PipeOp.write "a", PipeOp.read, PipeOp.read, PipeOp.write "b",
           PipeOp.read])).take
        (min (readCountOf (pipeEvents freshPipe
            [PipeOp.write "a", PipeOp.read, PipeOp.read, PipeOp.write "b",
             PipeOp.read]))
          (writtenOf (pipeEvents freshPipe
              [PipeOp.write "a", PipeOp.read, PipeOp.read, PipeOp.write "b",
               PipeOp.read])).length) :=
  ⟨by decide,
   (claim_C3 [PipeOp.write "a", PipeOp.read, PipeOp.read, PipeOp.write "b",
      PipeOp.read] (by decide)).1⟩


/-! ### Query codec round trip (claim C8) -/

theorem hexVal_hexDigitChar (n : Nat) (h : n < 16) :
    hexVal (hexDigitChar n) = some n := by
  interval_cases n <;> decide

theorem hexDigitChar_ne_delim (n : Nat) (h : n < 16) :
    hexDigitChar n ≠ ';' ∧ hexDigitChar n ≠ '&' ∧ hexDigitChar n ≠ '=' := by
  interval_cases n <;> refine ⟨by decide, by decide, by decide⟩

theorem mem_percentEncodeChar (c x : Char) (hx : x ∈ percentEncodeChar c) :
    isUnreserved x = true ∨ x = '%' ∨ ∃ n, n < 16 ∧ x = hexDigitChar n := by
  unfold percentEncodeChar at hx
  split at hx
  case isTrue h =>
    rw [List.mem_singleton] at hx
    subst hx
    exact Or.inl h
  case isFalse h =>
    simp only [List.mem_cons, List.not_mem_nil, or_false] at hx
    rcases hx with rfl | rfl | rfl
    · exact Or.inr (Or.inl rfl)
    · exact Or.inr (Or.inr ⟨_, Nat.mod_lt _ (by omega), rfl⟩)
    · exact Or.inr (Or.inr ⟨_, Nat.mod_lt _ (by omega), rfl⟩)

theorem percentEncodeChar_ne_delim (c x : Char)
    (hx : x ∈ percentEncodeChar c) :
    x ≠ ';' ∧ x ≠ '&' ∧ x ≠ '=' := by
  rcases mem_percentEncodeChar c x hx with h | rfl | ⟨n, hn, rfl⟩
  · refine ⟨?_, ?_, ?_⟩ <;> rintro rfl <;> exact absurd h (by decide)
  · exact ⟨by decide, by decide, by decide⟩
  · exact hexDigitChar_ne_delim n hn

theorem percentEncode_ne_delim (s : Str) (x : Char)
    (hx : x ∈ percentEncode s) : x ≠ ';' ∧ x ≠ '&' ∧ x ≠ '=' := by
  unfold percentEncode at hx
  rw [List.mem_flatten] at hx
  rcases hx with ⟨l, hl, hxl⟩
  rcases List.mem_map.mp hl with ⟨c, _, rfl⟩
  exact percentEncodeChar_ne_delim c x hxl

theorem percentEncode_ne_nil (s : Str) (h : s ≠ []) :
    percentEncode s ≠ [] := by
  cases s with
  | nil => exact absurd rfl h
  | cons c cs =>
    unfold percentEncode
    simp only [List.map_cons, List.flatten_cons, ne_eq, List.append_eq_nil]
    intro hcon
    have := hcon.1
    unfold percentEncodeChar at this
    split at this <;> cases this

theorem percentEncode_cons (c : Char) (cs : Str) :
    percentEncode (c :: cs) = percentEncodeChar c ++ percentEncode cs := rfl

theorem percentDecode_cons_ne (c : Char) (rest : Str) (hc : ¬ c = '%') :
    percentDecode (c :: rest) =
      match percentDecode rest with
      | Except.ok t => Except.ok (c :: t)
      | Except.error e => Except.error e := by
  rcases rest with _ | ⟨a, _ | ⟨b, rest'⟩⟩
  · rw [percentDecode.eq_3 c [] (by intro a b r hcon; cases hcon), if_neg hc]
  · rw [percentDecode.eq_3 c [a] (by intro x y r hcon; cases hcon), if_neg hc]
  · rw [percentDecode.eq_2, if_neg hc]

theorem percentDecode_esc (a b : Char) (rest : Str) (x y : Nat)
    (ha : hexVal a = some x) (hb : hexVal b = some y) :
    percentDecode ('%' :: a :: b :: rest) =
      match percentDecode rest with
      | Except.ok t => Except.ok (Char.ofNat (16 * x + y) :: t)
      | Except.error e => Except.error e := by
  rw [percentDecode.eq_2, if_pos rfl, ha, hb]

theorem percentDecode_percentEncode (s : Str) (h : ∀ c ∈ s, c.toNat < 256) :
    percentDecode (percentEncode s) = Except.ok s := by
  induction s with
  | nil => rfl
  | cons c cs ih =>
    have hc : c.toNat < 256 := h c (List.mem_cons_self c cs)
    have ihs : percentDecode (percentEncode cs) = Except.ok cs :=
      ih (fun x hx => h x (List.mem_cons_of_mem c hx))
    rw [percentEncode_cons]
    by_cases hu : isUnreserved c = true
    · have he : percentEncodeChar c = [c] := by
        unfold percentEncodeChar
        rw [if_pos hu]
      have hcne : ¬ c = '%' := by
        rintro rfl
        exact absurd hu (by decide)
      rw [he, List.singleton_append, percentDecode_cons_ne c _ hcne, ihs]
    · have he : percentEncodeChar c =
          ['%', hexDigitChar (c.toNat / 16 % 16),
           hexDigitChar (c.toNat % 16)] := by
        unfold percentEncodeChar
        rw [if_neg hu]
      rw [he, List.cons_append, List.cons_append, List.cons_append,
        List.nil_append,
        percentDecode_esc _ _ _ _ _
          (hexVal_hexDigitChar _ (Nat.mod_lt _ (by omega)))
          (hexVal_hexDigitChar _ (Nat.mod_lt _ (by omega))),
        ihs]
      have hdiv : c.toNat / 16 % 16 = c.toNat / 16 :=
        Nat.mod_eq_of_lt (by omega)
      rw [hdiv]
      show Except.ok (Char.ofNat (16 * (c.toNat / 16) + c.toNat % 16) :: cs) =
        Except.ok (c :: cs)
      rw [Nat.div_add_mod, Char.ofNat_toNat]

theorem tokenizeGo_append_nondelim (delims : List Char) (piece : Str)
    (h : ∀ c ∈ piece, delims.contains c = false) :
    ∀ (t cur : Str),
      tokenizeGo delims (piece ++ t) cur =
        tokenizeGo delims t (piece.reverse ++ cur) := by
  induction piece with
  | nil => intro t cur; rfl
  | cons c cs ih =>
    intro t cur
    have hc : delims.contains c = false := h c (List.mem_cons_self c cs)
    rw [List.cons_append, tokenizeGo, hc]
    simp only [Bool.false_eq_true, if_false]
    rw [ih (fun x hx => h x (List.mem_cons_of_mem c hx)) t (c :: cur),
      List.reverse_cons, List.append_assoc, List.singleton_append]

theorem tokenize_single (delims : List Char) (piece : Str)
    (hne : piece ≠ []) (h : ∀ c ∈ piece, delims.contains c = false) :
    tokenize delims piece = [piece] := by
  unfold tokenize
  have := tokenizeGo_append_nondelim delims piece h [] []
  rw [List.append_nil, List.append_nil] at this
  rw [this, tokenizeGo]
  rw [if_neg (by simpa using hne), List.reverse_reverse]

theorem tokenize_piece_delim (delims : List Char) (piece : Str) (d : Char)
    (rest : Str) (hne : piece ≠ [])
    (h : ∀ c ∈ piece, delims.contains c = false)
    (hd : delims.contains d = true) :
    tokenize delims (piece ++ d :: rest) = piece :: tokenize delims rest := by
  unfold tokenize
  rw [tokenizeGo_append_nondelim delims piece h (d :: rest) [],
    List.append_nil, tokenizeGo, hd]
  simp only [if_true]
  rw [if_neg (by simpa using hne), List.reverse_reverse]

theorem removeOneSuffix_concat (x : Char) (l : Str) :
    removeOneSuffix x (l ++ [x]) = l := by
  unfold removeOneSuffix
  rw [List.getLast?_concat]
  show (if x = x then (l ++ [x]).dropLast else l ++ [x]) = l
  rw [if_pos rfl, List.dropLast_concat]

theorem removeOneSuffix_append (x : Char) (a b : Str) (hb : b ≠ []) :
    removeOneSuffix x (a ++ b) = a ++ removeOneSuffix x b := by
  unfold removeOneSuffix
  cases hgl : b.getLast? with
  | none => exact absurd (List.getLast?_eq_none_iff.mp hgl) hb
  | some c =>
    have hgl2 : (a ++ b).getLast? = some c := by
      rw [List.getLast?_append_of_ne_nil a hb, hgl]
    rw [hgl2]
    show (if c = x then (a ++ b).dropLast else a ++ b) =
      a ++ (if c = x then b.dropLast else b)
    by_cases hcx : c = x
    · rw [if_pos hcx, if_pos hcx, List.dropLast_append_of_ne_nil a hb]
    · rw [if_neg hcx, if_neg hcx]

theorem encPiece_eq (p : Str × Str) (h : p.2 ≠ []) :
    encPiece p = percentEncode p.1 ++ '=' :: percentEncode p.2 := by
  unfold encPiece
  rw [if_neg h]

theorem encPiece_ne_nil (p : Str × Str) (h : p.1 ≠ []) :
    encPiece p ≠ [] := by
  unfold encPiece
  intro hcon
  rw [List.append_eq_nil] at hcon
  exact percentEncode_ne_nil p.1 h hcon.1

theorem encPiece_nondelim (p : Str × Str) :
    ∀ c ∈ encPiece p, ([';', '&'] : List Char).contains c = false := by
  intro c hc
  unfold encPiece at hc
  rcases List.mem_append.mp hc with h | h
  · have := percentEncode_ne_delim p.1 c h
    simp [List.contains_eq_any_beq, this.1, this.2.1]
  · split at h
    · cases h
    · rcases List.mem_cons.mp h with rfl | h
      · decide
      · have := percentEncode_ne_delim p.2 c h
        simp [List.contains_eq_any_beq, this.1, this.2.1]

theorem queryEncode_eq (m : List (Str × Str)) :
    queryEncode m =
      removeOneSuffix '&'
        ((m.map (fun p => encPiece p ++ ['&'])).flatten) := rfl

theorem tokenize_queryEncode (m : List (Str × Str))
    (hk : ∀ p ∈ m, p.1 ≠ ([] : Str)) :
    tokenize [';', '&'] (queryEncode m) = m.map encPiece := by
  induction m with
  | nil => rfl
  | cons p rest ih =>
    have hp1 : p.1 ≠ [] := hk p (List.mem_cons_self p rest)
    have hpne : encPiece p ≠ [] := encPiece_ne_nil p hp1
    have hpnd := encPiece_nondelim p
    rw [queryEncode_eq, List.map_cons, List.flatten_cons]
    cases rest with
    | nil =>
      rw [List.map_nil, List.flatten_nil, List.append_nil,
        removeOneSuffix_concat]
      rw [List.map_cons, List.map_nil]
      exact tokenize_single _ _ hpne hpnd
    | cons q qrest =>
      have hJne : ((q :: qrest).map (fun p => encPiece p ++ ['&'])).flatten ≠
          [] := by
        rw [List.map_cons, List.flatten_cons]
        intro hcon
        rw [List.append_eq_nil, List.append_eq_nil] at hcon
        cases hcon.1.2
      rw [removeOneSuffix_append '&' _ _ hJne, List.append_assoc,
        List.singleton_append,
        tokenize_piece_delim [';', '&'] (encPiece p) '&' _ hpne hpnd
          (by decide), ← queryEncode_eq,
        ih (fun q hq => hk q (List.mem_cons_of_mem p hq))]
      rfl

theorem splitFirstAt_encoded (k v : Str) (hkne : ∀ c ∈ k, ¬ c = '=') :
    splitFirstAt '=' (k ++ '=' :: v) = (k, some v) := by
  induction k with
  | nil => simp [splitFirstAt]
  | cons c cs ih =>
    have hc : ¬ c = '=' := hkne c (List.mem_cons_self c cs)
    rw [List.cons_append, splitFirstAt, if_neg hc,
      ih (fun x hx => hkne x (List.mem_cons_of_mem c hx))]

theorem hmInsertS_fresh (acc : List (Str × Str)) (k v : Str)
    (h : ∀ p ∈ acc, p.1 ≠ k) :
    hmInsertS acc k v = acc ++ [(k, v)] := by
  unfold hmInsertS
  rw [if_neg]
  intro hcon
  rcases List.any_eq_true.mp hcon with ⟨p, hp, he⟩
  exact h p hp (by simpa using he)

theorem queryDecodeLoop_encoded (m : List (Str × Str)) :
    ∀ acc : List (Str × Str),
      (((acc ++ m).map Prod.fst).Nodup) →
      (∀ p ∈ m, p.1 ≠ [] ∧ p.2 ≠ []) →
      (∀ p ∈ m, (∀ c ∈ p.1, c.toNat < 256) ∧ (∀ c ∈ p.2, c.toNat < 256)) →
      queryDecodeLoop acc (m.map encPiece) = Except.ok (acc ++ m) := by
  induction m with
  | nil =>
    intro acc _ _ _
    rw [List.map_nil, List.append_nil]
    rfl
  | cons p rest ih =>
    intro acc hnd hne hbyte
    have hp2 : p.2 ≠ [] := (hne p (List.mem_cons_self p rest)).2
    have hfresh : ∀ q ∈ acc, q.1 ≠ p.1 := by
      intro q hq hcon
      rw [List.map_append, List.nodup_append] at hnd
      exact hnd.2.2 (List.mem_map.mpr ⟨q, hq, rfl⟩)
        (by rw [hcon, List.map_cons]; exact List.mem_cons_self _ _)
    rw [List.map_cons, queryDecodeLoop,
      encPiece_eq p hp2,
      splitFirstAt_encoded _ _
        (fun c hc => (percentEncode_ne_delim p.1 c hc).2.2)]
    show (match percentDecode (percentEncode p.1) with
      | Except.error e => Except.error e
      | Except.ok k =>
        match some (percentEncode p.2) with
        | some raw =>
          match percentDecode raw with
          | Except.error e => Except.error e
          | Except.ok v =>
            queryDecodeLoop (hmInsertS acc k v) (List.map encPiece rest)
        | none => queryDecodeLoop (hmInsertS acc k []) (List.map encPiece rest)) =
      Except.ok (acc ++ p :: rest)
    rw [percentDecode_percentEncode p.1 (hbyte p (List.mem_cons_self p rest)).1]
    show (match percentDecode (percentEncode p.2) with
      | Except.error e => Except.error e
      | Except.ok v =>
        queryDecodeLoop (hmInsertS acc p.1 v) (List.map encPiece rest)) =
      Except.ok (acc ++ p :: rest)
    rw [percentDecode_percentEncode p.2 (hbyte p (List.mem_cons_self p rest)).2]
    show queryDecodeLoop (hmInsertS acc p.1 p.2) (rest.map encPiece) =
      Except.ok (acc ++ p :: rest)
    rw [hmInsertS_fresh acc p.1 p.2 hfresh,
      ih (acc ++ [(p.1, p.2)])
        (by
          rw [List.append_assoc, List.singleton_append]
          exact hnd)
        (fun q hq => hne q (List.mem_cons_of_mem p hq))
        (fun q hq => hbyte q (List.mem_cons_of_mem p hq)),
      List.append_assoc, List.singleton_append]

/-- Claim C8: for every mapping with distinct, non-empty byte-string
keys and non-empty byte-string values, `query::decode` inverts
`query::encode` exactly; moreover the percent-encodings of all keys
and values are free of the delimiter characters `;`, `&`, `=` (the
claim's side condition holds of the encoder rather than needing to be
assumed). -/
theorem claim_C8 (m : List (Str × Str))
    (hnd : (m.map Prod.fst).Nodup)
    (hne : ∀ p ∈ m, p.1 ≠ [] ∧ p.2 ≠ [])
    (hbyte : ∀ p ∈ m,
      (∀ c ∈ p.1, c.toNat < 256) ∧ (∀ c ∈ p.2, c.toNat < 256)) :
    queryDecode (queryEncode m) = Except.ok m ∧
    (∀ p ∈ m, ∀ c ∈ percentEncode p.1 ++ percentEncode p.2,
      c ≠ ';' ∧ c ≠ '&' ∧ c ≠ '=') := by
  constructor
  · unfold queryDecode
    rw [tokenize_queryEncode m (fun p hp => (hne p hp).1)]
    have h := queryDecodeLoop_encoded m [] (by simpa using hnd) hne hbyte
    rw [List.nil_append] at h
    exact h
  · intro p _ c hc
    rcases List.mem_append.mp hc with h | h
    · exact percentEncode_ne_delim _ _ h
    · exact percentEncode_ne_delim _ _ h

/-- Claim C8 witness: a concrete two-entry mapping whose keys and
values need escaping. -/
theorem claim_C8_witness :
    (([(str "a b", str "c=d"), (str "k", str "v")].map
        (Prod.fst (β := Str))).Nodup) ∧
    queryDecode (queryEncode [(str "a b", str "c=d"), (str "k", str "v")]) =
      Except.ok [(str "a b", str "c=d"), (str "k", str "v")] :=
  ⟨by decide,
   (claim_C8 [(str "a b", str "c=d"), (str "k", str "v")] (by decide)
     (by decide) (by decide)).1⟩

end Http
